import Mathlib

/-!
# Verification of the pathfinder-classic typesetter

A shallow embedding of `src/pathfinder-classic/src/typesetter.rs`.

Modelling conventions:
* `f32` values are modelled as exact rationals (`ℚ`); the layout and culling
  arithmetic is translated operation for operation.
* `u16` values are modelled as `ℕ`, with the `% 2^16` wrap written explicitly
  at the one place the source performs `u16` arithmetic (`last_glyph_id`).
* The external collaborators (`Font`, the shaper, the outline provider) are
  modelled through the narrow interfaces the typesetter consumes.
* Out-of-bounds `Vec` indexing (a Rust panic) is modelled by an explicit
  `panic` outcome of store construction.
-/

/-- The font metrics interface consumed by the typesetter:
`units_per_em()`, `ascender()`, `descender()`, `line_gap()` (font design
units) and the advance width returned by
`metrics_for_glyph(glyph_mapping.glyph_for(' '))` (`advance_width`, an
unsigned design-unit quantity). -/
structure Font where
  units_per_em : ℕ
  ascender : ℤ
  descender : ℤ
  line_gap : ℤ
  space_advance : ℕ
deriving DecidableEq

/-- `pixels_per_unit = point_size / font.units_per_em() as f32`. -/
def pixelsPerUnit (font : Font) (point_size : ℚ) : ℚ :=
  point_size / (font.units_per_em : ℚ)

/-- `line_spacing = (ascender - descender + line_gap) * pixels_per_unit`. -/
def lineSpacing (font : Font) (point_size : ℚ) : ℚ :=
  ((font.ascender : ℚ) - (font.descender : ℚ) + (font.line_gap : ℚ)) *
    pixelsPerUnit font point_size

/-- `space_advance = metrics.advance_width as f32 * pixels_per_unit`. -/
def spaceAdvance (font : Font) (point_size : ℚ) : ℚ :=
  (font.space_advance : ℚ) * pixelsPerUnit font point_size

/-- One entry of the shaper's output for a word: a glyph identifier and its
advance in font design units (`shaper::shape_text`).  Advance widths are
unsigned design-unit quantities. -/
structure ShapedGlyphPosition where
  glyph_id : ℕ
  advance : ℕ
deriving DecidableEq

/-- A word of the input text, already shaped: the result of
`shaper::shape_text(&font, &glyph_mapping, word)` for one element of
`string.split_whitespace()`.  The shaper is an external collaborator, so
`add_text` below consumes the shaped words directly. -/
abbrev Word := List ShapedGlyphPosition

/-- `GlyphPosition { x: f32, y: f32, glyph_id: u16 }`. -/
structure GlyphPosition where
  x : ℚ
  y : ℚ
  glyph_id : ℕ
deriving DecidableEq

/-- `Typesetter { glyph_positions, page_width, cursor }`. -/
structure Typesetter where
  glyph_positions : List GlyphPosition
  page_width : ℚ
  cursor : ℚ × ℚ
deriving DecidableEq

/-- `Typesetter::new`: cursor starts at `(0, ascender * pixels_per_unit)`. -/
def Typesetter.new (page_width : ℚ) (initial_font : Font) (initial_point_size : ℚ) :
    Typesetter :=
  ⟨[], page_width, (0, (initial_font.ascender : ℚ) * pixelsPerUnit initial_font initial_point_size)⟩

/-- `total_advance = pixels_per_unit * Σ advance_i` for one shaped word. -/
def wordTotalAdvance (ppu : ℚ) (word : Word) : ℚ :=
  ppu * (word.map (fun g => (g.advance : ℚ))).sum

/-- The inner loop of `add_text`: push a `GlyphPosition` at the cursor for
each shaped glyph, advancing `cursor.x` by `advance * pixels_per_unit`. -/
def placeGlyphs (t : Typesetter) (ppu : ℚ) : Word → Typesetter
  | [] => t
  | g :: rest =>
      placeGlyphs
        { t with
            glyph_positions := t.glyph_positions ++ [⟨t.cursor.1, t.cursor.2, g.glyph_id⟩],
            cursor := (t.cursor.1 + (g.advance : ℚ) * ppu, t.cursor.2) }
        ppu rest

/-- One iteration of the `for word in string.split_whitespace()` loop of
`Typesetter::add_text`: wrap if `cursor.x + total_advance > page_width`,
place the word's glyphs, then add the trailing `space_advance`. -/
def addWord (ppu space_advance line_spacing : ℚ) (t : Typesetter) (word : Word) :
    Typesetter :=
  let total_advance := wordTotalAdvance ppu word
  let t1 := if t.page_width < t.cursor.1 + total_advance then
              { t with cursor := (0, t.cursor.2 + line_spacing) }
            else t
  let t2 := placeGlyphs t1 ppu word
  { t2 with cursor := (t2.cursor.1 + space_advance, t2.cursor.2) }

/-- `Typesetter::add_text`.  The text argument is represented by its list of
shaped words (`split_whitespace` composed with the external shaper). -/
def Typesetter.add_text (t : Typesetter) (font : Font) (point_size : ℚ)
    (words : List Word) : Typesetter :=
  words.foldl
    (addWord (pixelsPerUnit font point_size) (spaceAdvance font point_size)
      (lineSpacing font point_size))
    t

/-- One `add_text` invocation: the font, point size and shaped words of the
call. -/
structure Call where
  font : Font
  point_size : ℚ
  words : List Word

/-- A sequence of `add_text` calls over the lifetime of a `Typesetter`. -/
def runCalls (t : Typesetter) (calls : List Call) : Typesetter :=
  calls.foldl (fun t c => t.add_text c.font c.point_size c.words) t

/-- Specification artifact: the glyph records produced for one word placed
starting at pen position `(x, y)`: the k-th glyph sits at
`x + Σ_{j<k} advance_j * ppu`, all on the same baseline `y`. -/
def placeRun (x y ppu : ℚ) : Word → List GlyphPosition
  | [] => []
  | g :: rest => ⟨x, y, g.glyph_id⟩ :: placeRun (x + (g.advance : ℚ) * ppu) y ppu rest

/-! ## Characterization of the layout step -/

lemma placeGlyphs_eq (ppu : ℚ) (w : Word) : ∀ t : Typesetter,
    placeGlyphs t ppu w =
      ⟨t.glyph_positions ++ placeRun t.cursor.1 t.cursor.2 ppu w, t.page_width,
       (t.cursor.1 + wordTotalAdvance ppu w, t.cursor.2)⟩ := by
  induction w with
  | nil =>
      intro t
      simp only [placeGlyphs, placeRun, wordTotalAdvance, List.map_nil, List.sum_nil,
        mul_zero, add_zero, List.append_nil]
  | cons g rest ih =>
      intro t
      simp only [placeGlyphs, placeRun]
      rw [ih]
      simp only [wordTotalAdvance, List.map_cons, List.sum_cons, List.append_assoc,
        List.singleton_append]
      rw [Typesetter.mk.injEq]
      refine ⟨rfl, rfl, ?_⟩
      rw [Prod.mk.injEq]
      exact ⟨by ring, rfl⟩

lemma addWord_eq (ppu sa ls : ℚ) (t : Typesetter) (w : Word) :
    addWord ppu sa ls t w =
      let start := if t.page_width < t.cursor.1 + wordTotalAdvance ppu w then
                     ((0 : ℚ), t.cursor.2 + ls)
                   else t.cursor
      ⟨t.glyph_positions ++ placeRun start.1 start.2 ppu w, t.page_width,
       (start.1 + wordTotalAdvance ppu w + sa, start.2)⟩ := by
  unfold addWord
  by_cases h : t.page_width < t.cursor.1 + wordTotalAdvance ppu w
  · simp only [h, if_true, placeGlyphs_eq]
  · simp only [h, if_false, placeGlyphs_eq]

lemma foldl_take_succ {α β : Type} (f : β → α → β) (b : β) (l : List α) (i : ℕ)
    (h : i < l.length) :
    (l.take (i + 1)).foldl f b = f ((l.take i).foldl f b) (l.get ⟨i, h⟩) := by
  rw [List.take_succ, List.foldl_append, List.getElem?_eq_getElem h]
  rfl

lemma getD_eq_get_of_lt {α : Type} (l : List α) (d : α) (i : ℕ) (h : i < l.length) :
    l.getD i d = l.get ⟨i, h⟩ := by
  simp [List.getD_eq_getElem?_getD, List.getElem?_eq_getElem h]

/-- C1: for every `add_text` call and every word of the text, if
`cursor.x + total_advance > page_width` when the word is considered then the
cursor wraps (`x := 0`, `y += line_spacing`) before any glyph of the word is
placed, and the word is then laid out whole — glyph `k` at the wrapped
`cursor.x` plus the prefix sum of advances — with no dependence on
`page_width` during placement (an oversized word is never split and may
exceed the page). -/
theorem add_text_wrap_rule (font : Font) (point_size : ℚ) (t : Typesetter)
    (words : List Word) (i : ℕ) (h : i < words.length) :
    (t.add_text font point_size (words.take (i + 1))).glyph_positions =
      (t.add_text font point_size (words.take i)).glyph_positions ++
        (if (t.add_text font point_size (words.take i)).page_width <
              (t.add_text font point_size (words.take i)).cursor.1 +
                wordTotalAdvance (pixelsPerUnit font point_size) (words.getD i []) then
           placeRun 0
             ((t.add_text font point_size (words.take i)).cursor.2 + lineSpacing font point_size)
             (pixelsPerUnit font point_size) (words.getD i [])
         else
           placeRun (t.add_text font point_size (words.take i)).cursor.1
             (t.add_text font point_size (words.take i)).cursor.2
             (pixelsPerUnit font point_size) (words.getD i [])) := by
  unfold Typesetter.add_text
  rw [foldl_take_succ _ _ _ _ h, addWord_eq, getD_eq_get_of_lt words [] i h]
  by_cases hw :
      (List.foldl
          (addWord (pixelsPerUnit font point_size) (spaceAdvance font point_size)
            (lineSpacing font point_size)) t (words.take i)).page_width <
        (List.foldl
            (addWord (pixelsPerUnit font point_size) (spaceAdvance font point_size)
              (lineSpacing font point_size)) t (words.take i)).cursor.1 +
          wordTotalAdvance (pixelsPerUnit font point_size) (words.get ⟨i, h⟩)
  · simp only [hw, if_true]
  · simp only [hw, if_false]

def exFont : Font := ⟨1000, 800, -200, 200, 600⟩

def exWord : Word := [⟨0, 600⟩]

theorem add_text_wrap_rule_witness :
    0 < ([exWord] : List Word).length ∧
    ((Typesetter.new 10 exFont 10).add_text exFont 10 (([exWord] : List Word).take (0 + 1))).glyph_positions =
      ((Typesetter.new 10 exFont 10).add_text exFont 10 (([exWord] : List Word).take 0)).glyph_positions ++
        (if ((Typesetter.new 10 exFont 10).add_text exFont 10 (([exWord] : List Word).take 0)).page_width <
              ((Typesetter.new 10 exFont 10).add_text exFont 10 (([exWord] : List Word).take 0)).cursor.1 +
                wordTotalAdvance (pixelsPerUnit exFont 10) (([exWord] : List Word).getD 0 []) then
           placeRun 0
             (((Typesetter.new 10 exFont 10).add_text exFont 10 (([exWord] : List Word).take 0)).cursor.2 +
               lineSpacing exFont 10)
             (pixelsPerUnit exFont 10) (([exWord] : List Word).getD 0 [])
         else
           placeRun ((Typesetter.new 10 exFont 10).add_text exFont 10 (([exWord] : List Word).take 0)).cursor.1
             ((Typesetter.new 10 exFont 10).add_text exFont 10 (([exWord] : List Word).take 0)).cursor.2
             (pixelsPerUnit exFont 10) (([exWord] : List Word).getD 0 [])) :=
  ⟨by decide, add_text_wrap_rule exFont 10 (Typesetter.new 10 exFont 10) [exWord] 0 (by decide)⟩

lemma wordTotalAdvance_nonneg (ppu : ℚ) (w : Word) (h : 0 ≤ ppu) :
    0 ≤ wordTotalAdvance ppu w := by
  refine mul_nonneg h (List.sum_nonneg ?_)
  intro q hq
  obtain ⟨g, -, rfl⟩ := List.mem_map.1 hq
  exact Nat.cast_nonneg _

lemma mem_placeRun (w : Word) : ∀ (x y ppu : ℚ), ∀ g ∈ placeRun x y ppu w,
    g.y = y ∧ (0 ≤ ppu → x ≤ g.x ∧ g.x ≤ x + wordTotalAdvance ppu w) := by
  induction w with
  | nil => intro x y ppu g hg; cases hg
  | cons a rest ih =>
      intro x y ppu g hg
      rcases List.mem_cons.1 hg with rfl | hg
      · refine ⟨rfl, fun hppu => ⟨le_refl _, ?_⟩⟩
        exact le_add_of_nonneg_right (wordTotalAdvance_nonneg ppu (a :: rest) hppu)
      · obtain ⟨hy, hx⟩ := ih (x + (a.advance : ℚ) * ppu) y ppu g hg
        refine ⟨hy, fun hppu => ?_⟩
        obtain ⟨h1, h2⟩ := hx hppu
        have hadv : (0 : ℚ) ≤ (a.advance : ℚ) * ppu :=
          mul_nonneg (Nat.cast_nonneg _) hppu
        constructor
        · linarith
        · have : x + (a.advance : ℚ) * ppu + wordTotalAdvance ppu rest =
              x + wordTotalAdvance ppu (a :: rest) := by
            simp only [wordTotalAdvance, List.map_cons, List.sum_cons]
            ring
          linarith [this ▸ h2]

lemma addWord_cursor_y (ppu sa ls : ℚ) (t : Typesetter) (w : Word) :
    (addWord ppu sa ls t w).cursor.2 =
      t.cursor.2 +
        (if t.page_width < t.cursor.1 + wordTotalAdvance ppu w then ls else 0) := by
  rw [addWord_eq]
  by_cases h : t.page_width < t.cursor.1 + wordTotalAdvance ppu w
  · simp [h]
  · simp [h]

lemma addWord_y_le (ppu sa ls : ℚ) (t : Typesetter) (w : Word) (hls : 0 ≤ ls) :
    t.cursor.2 ≤ (addWord ppu sa ls t w).cursor.2 := by
  rw [addWord_cursor_y]
  have : 0 ≤ if t.page_width < t.cursor.1 + wordTotalAdvance ppu w then ls else 0 := by
    split
    · exact hls
    · exact le_refl _
  linarith

lemma addWord_mem_glyphs (ppu sa ls : ℚ) (t : Typesetter) (w : Word) :
    ∀ g ∈ (addWord ppu sa ls t w).glyph_positions,
      g ∈ t.glyph_positions ∨
        (g.y = (addWord ppu sa ls t w).cursor.2 ∧
          (0 ≤ ppu → 0 ≤ t.cursor.1 →
            0 ≤ g.x ∧ (wordTotalAdvance ppu w ≤ t.page_width → g.x ≤ t.page_width))) := by
  rw [addWord_eq]
  intro g hg
  simp only [List.mem_append] at hg
  rcases hg with hg | hg
  · exact Or.inl hg
  · right
    by_cases hc : t.page_width < t.cursor.1 + wordTotalAdvance ppu w
    · simp only [hc, if_true] at hg ⊢
      obtain ⟨hy, hx⟩ := mem_placeRun w 0 (t.cursor.2 + ls) ppu g hg
      refine ⟨hy, fun hppu _ => ?_⟩
      obtain ⟨h1, h2⟩ := hx hppu
      exact ⟨h1, fun hwt => by linarith⟩
    · simp only [hc, if_false] at hg ⊢
      obtain ⟨hy, hx⟩ := mem_placeRun w t.cursor.1 t.cursor.2 ppu g hg
      refine ⟨hy, fun hppu hx0 => ?_⟩
      obtain ⟨h1, h2⟩ := hx hppu
      have := not_lt.1 hc
      exact ⟨by linarith, fun _ => by linarith⟩

lemma addWord_cursor_x (ppu sa ls : ℚ) (t : Typesetter) (w : Word)
    (hppu : 0 ≤ ppu) (hsa : 0 ≤ sa) (hx : 0 ≤ t.cursor.1) :
    0 ≤ (addWord ppu sa ls t w).cursor.1 := by
  rw [addWord_eq]
  have hwt := wordTotalAdvance_nonneg ppu w hppu
  by_cases h : t.page_width < t.cursor.1 + wordTotalAdvance ppu w
  · simp only [h, if_true]
    show (0 : ℚ) ≤ 0 + wordTotalAdvance ppu w + sa
    linarith
  · simp only [h, if_false]
    show (0 : ℚ) ≤ t.cursor.1 + wordTotalAdvance ppu w + sa
    linarith

lemma addText_y_inv (font : Font) (point_size : ℚ)
    (hls : 0 ≤ lineSpacing font point_size) :
    ∀ (words : List Word) (t : Typesetter),
      t.cursor.2 ≤ (t.add_text font point_size words).cursor.2 ∧
      ∀ g ∈ (t.add_text font point_size words).glyph_positions,
        g ∈ t.glyph_positions ∨ t.cursor.2 ≤ g.y := by
  intro words
  induction words with
  | nil => exact fun t => ⟨le_refl _, fun g hg => Or.inl hg⟩
  | cons w rest ih =>
      intro t
      have hstep : Typesetter.add_text t font point_size (w :: rest) =
          Typesetter.add_text
            (addWord (pixelsPerUnit font point_size) (spaceAdvance font point_size)
              (lineSpacing font point_size) t w) font point_size rest := by
        simp [Typesetter.add_text]
      rw [hstep]
      set t1 := addWord (pixelsPerUnit font point_size) (spaceAdvance font point_size)
        (lineSpacing font point_size) t w with ht1
      have hy1 : t.cursor.2 ≤ t1.cursor.2 := addWord_y_le _ _ _ t w hls
      obtain ⟨hy2, hmem⟩ := ih t1
      refine ⟨le_trans hy1 hy2, fun g hg => ?_⟩
      rcases hmem g hg with hg1 | hg1
      · rcases addWord_mem_glyphs _ _ _ t w g hg1 with hg2 | hg2
        · exact Or.inl hg2
        · exact Or.inr (hg2.1 ▸ hy1)
      · exact Or.inr (le_trans hy1 hg1)

lemma runCalls_y_inv : ∀ (calls : List Call) (t : Typesetter),
    (∀ c ∈ calls, 0 ≤ lineSpacing c.font c.point_size) →
    t.cursor.2 ≤ (runCalls t calls).cursor.2 ∧
    ∀ g ∈ (runCalls t calls).glyph_positions, g ∈ t.glyph_positions ∨ t.cursor.2 ≤ g.y := by
  intro calls
  induction calls with
  | nil => exact fun t _ => ⟨le_refl _, fun g hg => Or.inl hg⟩
  | cons c rest ih =>
      intro t hc
      have hstep : runCalls t (c :: rest) =
          runCalls (t.add_text c.font c.point_size c.words) rest := by
        simp [runCalls]
      rw [hstep]
      set t1 := t.add_text c.font c.point_size c.words with ht1
      obtain ⟨hy1, hmem1⟩ := addText_y_inv c.font c.point_size
        (hc c (List.mem_cons_self _ _)) c.words t
      obtain ⟨hy2, hmem2⟩ := ih t1 (fun d hd => hc d (List.mem_cons_of_mem _ hd))
      refine ⟨le_trans hy1 hy2, fun g hg => ?_⟩
      rcases hmem2 g hg with hg1 | hg1
      · rcases hmem1 g hg1 with hg2 | hg2
        · exact Or.inl hg2
        · exact Or.inr hg2
      · exact Or.inr (le_trans hy1 hg1)

/-- C5: `cursor.y` changes only at wraps, where it grows by exactly
`line_spacing = (ascender - descender + line_gap) * pixels_per_unit` of the
`add_text` call in progress; and over any sequence of calls whose line
spacing is nonnegative, `cursor.y` — and the `y` of every glyph emitted
after a given moment — never decreases. -/
theorem cursor_y_monotone :
    (∀ (font : Font) (point_size : ℚ) (t : Typesetter) (words : List Word) (i : ℕ),
        i < words.length →
        (t.add_text font point_size (words.take (i + 1))).cursor.2 =
          (t.add_text font point_size (words.take i)).cursor.2 +
            (if (t.add_text font point_size (words.take i)).page_width <
                  (t.add_text font point_size (words.take i)).cursor.1 +
                    wordTotalAdvance (pixelsPerUnit font point_size) (words.getD i []) then
               lineSpacing font point_size
             else 0))
    ∧ ∀ (t : Typesetter) (calls : List Call),
        (∀ c ∈ calls, 0 ≤ lineSpacing c.font c.point_size) →
        t.cursor.2 ≤ (runCalls t calls).cursor.2 ∧
        ∀ g ∈ (runCalls t calls).glyph_positions, g ∈ t.glyph_positions ∨ t.cursor.2 ≤ g.y := by
  constructor
  · intro font point_size t words i h
    unfold Typesetter.add_text
    rw [foldl_take_succ _ _ _ _ h, addWord_cursor_y, getD_eq_get_of_lt words [] i h]
  · exact fun t calls h => runCalls_y_inv calls t h

theorem cursor_y_monotone_witness :
    (0 < ([exWord] : List Word).length ∧
      ((Typesetter.new 10 exFont 10).add_text exFont 10 (([exWord] : List Word).take (0 + 1))).cursor.2 =
        ((Typesetter.new 10 exFont 10).add_text exFont 10 (([exWord] : List Word).take 0)).cursor.2 +
          (if ((Typesetter.new 10 exFont 10).add_text exFont 10 (([exWord] : List Word).take 0)).page_width <
                ((Typesetter.new 10 exFont 10).add_text exFont 10 (([exWord] : List Word).take 0)).cursor.1 +
                  wordTotalAdvance (pixelsPerUnit exFont 10) (([exWord] : List Word).getD 0 []) then
             lineSpacing exFont 10
           else 0))
    ∧ ((∀ c ∈ [Call.mk exFont 10 [exWord]], 0 ≤ lineSpacing c.font c.point_size) ∧
        (Typesetter.new 10 exFont 10).cursor.2 ≤
          (runCalls (Typesetter.new 10 exFont 10) [Call.mk exFont 10 [exWord]]).cursor.2) :=
  ⟨⟨by decide, cursor_y_monotone.1 exFont 10 (Typesetter.new 10 exFont 10) [exWord] 0 (by decide)⟩,
   ⟨by intro c hc; rcases List.mem_singleton.1 hc with rfl; norm_num [lineSpacing, pixelsPerUnit, exFont],
    (cursor_y_monotone.2 (Typesetter.new 10 exFont 10) [Call.mk exFont 10 [exWord]]
      (by intro c hc; rcases List.mem_singleton.1 hc with rfl
          norm_num [lineSpacing, pixelsPerUnit, exFont])).1⟩⟩

lemma addText_x_inv (font : Font) (point_size : ℚ)
    (hppu : 0 ≤ pixelsPerUnit font point_size) :
    ∀ (words : List Word) (t : Typesetter), 0 ≤ t.cursor.1 →
      0 ≤ (t.add_text font point_size words).cursor.1 ∧
      ∀ g ∈ (t.add_text font point_size words).glyph_positions,
        g ∈ t.glyph_positions ∨ 0 ≤ g.x := by
  have hsa : 0 ≤ spaceAdvance font point_size :=
    mul_nonneg (Nat.cast_nonneg _) hppu
  intro words
  induction words with
  | nil => exact fun t hx => ⟨hx, fun g hg => Or.inl hg⟩
  | cons w rest ih =>
      intro t hx
      have hstep : Typesetter.add_text t font point_size (w :: rest) =
          Typesetter.add_text
            (addWord (pixelsPerUnit font point_size) (spaceAdvance font point_size)
              (lineSpacing font point_size) t w) font point_size rest := by
        simp [Typesetter.add_text]
      rw [hstep]
      set t1 := addWord (pixelsPerUnit font point_size) (spaceAdvance font point_size)
        (lineSpacing font point_size) t w with ht1
      have hx1 : 0 ≤ t1.cursor.1 := addWord_cursor_x _ _ _ t w hppu hsa hx
      obtain ⟨hx2, hmem⟩ := ih t1 hx1
      refine ⟨hx2, fun g hg => ?_⟩
      rcases hmem g hg with hg1 | hg1
      · rcases addWord_mem_glyphs _ _ _ t w g hg1 with hg2 | hg2
        · exact Or.inl hg2
        · exact Or.inr (hg2.2 hppu hx).1
      · exact Or.inr hg1

lemma runCalls_x_inv : ∀ (calls : List Call) (t : Typesetter),
    0 ≤ t.cursor.1 →
    (∀ c ∈ calls, 0 ≤ pixelsPerUnit c.font c.point_size) →
    0 ≤ (runCalls t calls).cursor.1 ∧
    ∀ g ∈ (runCalls t calls).glyph_positions, g ∈ t.glyph_positions ∨ 0 ≤ g.x := by
  intro calls
  induction calls with
  | nil => exact fun t hx _ => ⟨hx, fun g hg => Or.inl hg⟩
  | cons c rest ih =>
      intro t hx hc
      have hstep : runCalls t (c :: rest) =
          runCalls (t.add_text c.font c.point_size c.words) rest := by
        simp [runCalls]
      rw [hstep]
      obtain ⟨hx1, hmem1⟩ := addText_x_inv c.font c.point_size
        (hc c (List.mem_cons_self _ _)) c.words t hx
      obtain ⟨hx2, hmem2⟩ := ih _ hx1 (fun d hd => hc d (List.mem_cons_of_mem _ hd))
      refine ⟨hx2, fun g hg => ?_⟩
      rcases hmem2 g hg with hg1 | hg1
      · rcases hmem1 g hg1 with hg2 | hg2
        · exact Or.inl hg2
        · exact Or.inr hg2
      · exact Or.inr hg1

/-- C4 (amended): every glyph of a word whose total advance fits the page is
placed with `x ∈ [0, page_width]` (only glyphs of a word wider than the page
may exceed it), and `cursor.x` and every emitted glyph `x` stay nonnegative
over any sequence of calls; `cursor.x` itself, however, is not bounded by
`page_width` between words (see `cursor_x_exceeds_page_width`). -/
theorem glyph_x_in_page :
    (∀ (ppu sa ls : ℚ) (t : Typesetter) (w : Word),
        0 ≤ ppu → 0 ≤ t.cursor.1 → wordTotalAdvance ppu w ≤ t.page_width →
        ∀ g ∈ (addWord ppu sa ls t w).glyph_positions,
          g ∈ t.glyph_positions ∨ (0 ≤ g.x ∧ g.x ≤ t.page_width))
    ∧ ∀ (t : Typesetter) (calls : List Call),
        0 ≤ t.cursor.1 →
        (∀ c ∈ calls, 0 ≤ pixelsPerUnit c.font c.point_size) →
        0 ≤ (runCalls t calls).cursor.1 ∧
        ∀ g ∈ (runCalls t calls).glyph_positions, g ∈ t.glyph_positions ∨ 0 ≤ g.x := by
  constructor
  · intro ppu sa ls t w hppu hx hwt g hg
    rcases addWord_mem_glyphs ppu sa ls t w g hg with hg1 | hg1
    · exact Or.inl hg1
    · obtain ⟨h0, h1⟩ := hg1.2 hppu hx
      exact Or.inr ⟨h0, h1 hwt⟩
  · exact fun t calls hx hc => runCalls_x_inv calls t hx hc

theorem glyph_x_in_page_witness :
    ((0 : ℚ) ≤ 1 / 100 ∧ (0 : ℚ) ≤ (⟨[], 10, (0, 0)⟩ : Typesetter).cursor.1 ∧
      wordTotalAdvance (1 / 100) exWord ≤ (⟨[], 10, (0, 0)⟩ : Typesetter).page_width ∧
      ∀ g ∈ (addWord (1 / 100) 0 0 ⟨[], 10, (0, 0)⟩ exWord).glyph_positions,
        g ∈ (⟨[], 10, (0, 0)⟩ : Typesetter).glyph_positions ∨
          (0 ≤ g.x ∧ g.x ≤ (⟨[], 10, (0, 0)⟩ : Typesetter).page_width))
    ∧ 0 ≤ (runCalls ⟨[], 10, (0, 0)⟩ [Call.mk exFont 10 [exWord]]).cursor.1 :=
  ⟨⟨by norm_num, by norm_num, by norm_num [wordTotalAdvance, exWord],
    glyph_x_in_page.1 (1 / 100) 0 0 ⟨[], 10, (0, 0)⟩ exWord (by norm_num) (by norm_num)
      (by norm_num [wordTotalAdvance, exWord])⟩,
   (glyph_x_in_page.2 ⟨[], 10, (0, 0)⟩ [Call.mk exFont 10 [exWord]] (by norm_num)
      (by intro c hc; rcases List.mem_singleton.1 hc with rfl
          norm_num [pixelsPerUnit, exFont])).1⟩

/-- C4 counterexample: with `page_width = 10` and a single word of total
advance `6 ≤ 10` followed by a space advance of `6`, `add_text` leaves
`cursor.x = 12 ∉ [0, page_width]` although no word was wider than the page
— the trailing space advance pushes the cursor past the page edge, and the
state persists between calls (it is not transient). -/
theorem cursor_x_exceeds_page_width :
    ((Typesetter.new 10 exFont 10).add_text exFont 10 [exWord]).page_width = 10 ∧
    ((Typesetter.new 10 exFont 10).add_text exFont 10 [exWord]).cursor.1 = 12 ∧
    wordTotalAdvance (pixelsPerUnit exFont 10) exWord = 6 := by
  norm_num [Typesetter.add_text, Typesetter.new, addWord, placeGlyphs, wordTotalAdvance,
    pixelsPerUnit, spaceAdvance, lineSpacing, exFont, exWord]

/-! ## Glyph stores -/

/-- Rust `Vec::dedup`: remove *consecutive* repeated elements. -/
def dedup_adjacent : List ℕ → List ℕ
  | [] => []
  | [a] => [a]
  | a :: b :: rest =>
      if a = b then dedup_adjacent (b :: rest) else a :: dedup_adjacent (b :: rest)

/-- `glyph_ids.sort(); glyph_ids.dedup();` — sort ascending, then drop
adjacent duplicates. -/
def sortedDedup (l : List ℕ) : List ℕ :=
  dedup_adjacent (l.insertionSort (· ≤ ·))

/-- Modelled from the spec: the subpixel-precision bounding rectangle
returned by `Outlines::glyph_subpixel_bounds` (`outline.rs` is not among the
given sources).  Per §4.1/§6 of the spec it is a rectangle with scalable
edges that can be rounded outward. -/
structure GlyphSubpixelBounds where
  left : ℚ
  bottom : ℚ
  right : ℚ
  top : ℚ
deriving DecidableEq

/-- Modelled from the spec: `GlyphSubpixelBounds::scale` multiplies every
edge by the factor. -/
def GlyphSubpixelBounds.scale (b : GlyphSubpixelBounds) (factor : ℚ) : GlyphSubpixelBounds :=
  ⟨b.left * factor, b.bottom * factor, b.right * factor, b.top * factor⟩

/-- Integer pixel bounds produced by outward rounding. -/
structure GlyphPixelBounds where
  left : ℤ
  bottom : ℤ
  right : ℤ
  top : ℤ
deriving DecidableEq

/-- Modelled from the spec: `round_out` — floor on the minimum edges, ceil
on the maximum edges, so the rounded rectangle contains the unrounded one. -/
def GlyphSubpixelBounds.round_out (b : GlyphSubpixelBounds) : GlyphPixelBounds :=
  ⟨⌊b.left⌋, ⌊b.bottom⌋, ⌈b.right⌉, ⌈b.top⌉⟩

/-- The (unrounded) subpixel size of the bounds: `(width, height)`. -/
def GlyphSubpixelBounds.size (b : GlyphSubpixelBounds) : ℚ × ℚ :=
  (b.right - b.left, b.top - b.bottom)

/-- Error type `GlyphStoreCreationError { FontError(..), GlError(..) }`;
the payloads of the external error types are modelled as opaque numbers. -/
inductive GlyphStoreCreationError where
  | fontError (e : ℕ)
  | glError (e : ℕ)
deriving DecidableEq

/-- Modelled from the spec: the external outline provider
(`OutlineBuilder`/`Outlines` of `outline.rs`, not among the given sources).
`add_glyph(font, id)` fails with a font-decode error per the oracle `fail`,
and otherwise assigns dense indices monotonically in call order (spec §4.2:
ascending-identifier order yields a `0..n-1` dense index space);
`create_buffers` fails per `finalizeErr`; the finished `Outlines` expose
`glyph_subpixel_bounds(index, point_size)` as the function `bounds`. -/
structure OutlineProvider where
  fail : ℕ → Option ℕ
  finalizeErr : Option ℕ
  bounds : ℕ → ℚ → GlyphSubpixelBounds

/-- Outcome of a store construction: a Rust panic (out-of-bounds `Vec`
write or arithmetic overflow in a debug build), an error return, or
success. -/
inductive BuildResult (α : Type) where
  | panic
  | err (e : GlyphStoreCreationError)
  | ok (a : α)

/-- The construction loop of `GlyphStore::from_glyph_ids`: for each glyph id
in order, `add_glyph` (which may fail), then
`glyph_id_to_glyph_index[glyph_id] = glyph_index` (which panics when
`glyph_id` is out of the array's bounds) and
`all_glyph_indices.push(glyph_index)`.  `next` is the provider's dense-index
counter. -/
def buildGlyphs (p : OutlineProvider) :
    List ℕ → List ℕ → List ℕ → ℕ → BuildResult (List ℕ × List ℕ)
  | [], arr, acc, _ => .ok (arr, acc)
  | glyph_id :: rest, arr, acc, next =>
      match p.fail glyph_id with
      | some e => .err (.fontError e)
      | none =>
          if glyph_id < arr.length then
            buildGlyphs p rest (arr.set glyph_id next) (acc ++ [next]) (next + 1)
          else .panic

/-- `last_glyph_id`: `match glyph_ids.last() { Some(&id) => id + 1, None => 0 }`
in `u16` arithmetic (wrapping at `2^16`). -/
def lastGlyphId (ids : List ℕ) : ℕ :=
  match ids.getLast? with
  | some id => (id + 1) % 65536
  | none => 0

/-- `GlyphStore { outlines, glyph_id_to_glyph_index, all_glyph_indices }`.
The opaque `Outlines` batch is represented by the bounds-query interface the
typesetter consumes from it. -/
structure GlyphStore where
  outlines : ℕ → ℚ → GlyphSubpixelBounds
  glyph_id_to_glyph_index : List ℕ
  all_glyph_indices : List ℕ

/-- `GlyphStore::from_glyph_ids`. -/
def GlyphStore.from_glyph_ids (glyph_ids : List ℕ) (p : OutlineProvider) :
    BuildResult GlyphStore :=
  let ids := sortedDedup glyph_ids
  match buildGlyphs p ids (List.replicate (lastGlyphId ids) 65535) [] 0 with
  | .panic => .panic
  | .err e => .err e
  | .ok (arr, acc) =>
      match p.finalizeErr with
      | some e => .err (.glError e)
      | none => .ok ⟨p.bounds, arr, sortedDedup acc⟩

/-- `GlyphStore::glyph_index`: `None` if out of bounds or equal to the
`u16::MAX` sentinel. -/
def GlyphStore.glyph_index (s : GlyphStore) (glyph_id : ℕ) : Option ℕ :=
  match s.glyph_id_to_glyph_index[glyph_id]? with
  | none => none
  | some idx => if idx = 65535 then none else some idx

/-- `Typesetter::create_glyph_store`: build a store from the glyph ids of
all accumulated glyph positions. -/
def Typesetter.create_glyph_store (t : Typesetter) (p : OutlineProvider) :
    BuildResult GlyphStore :=
  GlyphStore.from_glyph_ids (t.glyph_positions.map (fun gp => gp.glyph_id)) p

lemma mem_dedup_adjacent : ∀ (l : List ℕ) (x : ℕ), x ∈ dedup_adjacent l ↔ x ∈ l := by
  intro l
  induction l with
  | nil => intro x; simp [dedup_adjacent]
  | cons a t ih =>
      cases t with
      | nil => intro x; simp [dedup_adjacent]
      | cons b rest =>
          intro x
          simp only [dedup_adjacent]
          by_cases hab : a = b
          · subst hab
            rw [if_pos rfl, ih x]
            simp only [List.mem_cons]
            tauto
          · rw [if_neg hab]
            simp only [List.mem_cons, ih x, List.mem_cons]

lemma dedup_adjacent_sorted : ∀ (l : List ℕ), l.Sorted (· ≤ ·) →
    (dedup_adjacent l).Sorted (· < ·) := by
  intro l
  induction l with
  | nil => intro _; simp [dedup_adjacent]
  | cons a t ih =>
      cases t with
      | nil => intro _; simp [dedup_adjacent]
      | cons b rest =>
          intro h
          obtain ⟨hle, htail⟩ := List.sorted_cons.1 h
          simp only [dedup_adjacent]
          by_cases hab : a = b
          · rw [if_pos hab]
            exact ih htail
          · rw [if_neg hab]
            refine List.sorted_cons.2 ⟨?_, ih htail⟩
            intro x hx
            have hx2 : x ∈ b :: rest := (mem_dedup_adjacent _ x).1 hx
            have hab2 : a < b :=
              lt_of_le_of_ne (hle b (List.mem_cons_self _ _)) hab
            rcases List.mem_cons.1 hx2 with rfl | hx3
            · exact hab2
            · exact lt_of_lt_of_le hab2 ((List.sorted_cons.1 htail).1 x hx3)

lemma sortedDedup_sorted (l : List ℕ) : (sortedDedup l).Sorted (· < ·) :=
  dedup_adjacent_sorted _ (List.sorted_insertionSort _ l)

lemma mem_sortedDedup (l : List ℕ) (x : ℕ) : x ∈ sortedDedup l ↔ x ∈ l :=
  (mem_dedup_adjacent _ x).trans (List.mem_insertionSort _)

lemma sorted_lt_eq_of_mem_iff : ∀ {l₁ l₂ : List ℕ}, l₁.Sorted (· < ·) →
    l₂.Sorted (· < ·) → (∀ a, a ∈ l₁ ↔ a ∈ l₂) → l₁ = l₂ := by
  intro l₁
  induction l₁ with
  | nil =>
      intro l₂ _ _ hmem
      cases l₂ with
      | nil => rfl
      | cons b t => exact absurd ((hmem b).2 (List.mem_cons_self _ _)) (List.not_mem_nil b)
  | cons a t₁ ih =>
      intro l₂ h₁ h₂ hmem
      cases l₂ with
      | nil => exact absurd ((hmem a).1 (List.mem_cons_self _ _)) (List.not_mem_nil a)
      | cons b t₂ =>
          obtain ⟨ha1, ht1⟩ := List.sorted_cons.1 h₁
          obtain ⟨hb2, ht2⟩ := List.sorted_cons.1 h₂
          have hab : a = b := by
            have ha2 : a ∈ b :: t₂ := (hmem a).1 (List.mem_cons_self _ _)
            have hb1 : b ∈ a :: t₁ := (hmem b).2 (List.mem_cons_self _ _)
            rcases List.mem_cons.1 ha2 with h | h
            · exact h
            · rcases List.mem_cons.1 hb1 with h2 | h2
              · exact h2.symm
              · exact absurd (ha1 b h2) (not_lt.2 (le_of_lt (hb2 a h)))
          subst hab
          have htmem : ∀ x, x ∈ t₁ ↔ x ∈ t₂ := by
            intro x
            constructor
            · intro hx
              have hax : a < x := ha1 x hx
              rcases List.mem_cons.1 ((hmem x).1 (List.mem_cons_of_mem _ hx)) with rfl | h
              · exact absurd hax (lt_irrefl x)
              · exact h
            · intro hx
              have hax : a < x := hb2 x hx
              rcases List.mem_cons.1 ((hmem x).2 (List.mem_cons_of_mem _ hx)) with rfl | h
              · exact absurd hax (lt_irrefl x)
              · exact h
          rw [ih ht1 ht2 htmem]

lemma sorted_cons_le_get : ∀ (t : List ℕ) (a : ℕ), (a :: t).Sorted (· < ·) →
    ∀ (k : ℕ) (hk : k < (a :: t).length), a + k ≤ (a :: t).get ⟨k, hk⟩ := by
  intro t
  induction t with
  | nil =>
      intro a _ k hk
      have hk0 : k = 0 := Nat.lt_one_iff.1 hk
      subst hk0
      simp
  | cons b rest ih =>
      intro a h k hk
      cases k with
      | zero => simp
      | succ k =>
          obtain ⟨ha, htail⟩ := List.sorted_cons.1 h
          have hab : a < b := ha b (List.mem_cons_self _ _)
          have hk2 : k < (b :: rest).length := Nat.lt_of_succ_lt_succ hk
          have hrec := ih b htail k hk2
          have hget : (a :: b :: rest).get ⟨k + 1, hk⟩ = (b :: rest).get ⟨k, hk2⟩ := rfl
          rw [hget]
          omega

lemma buildGlyphs_ok_spec (p : OutlineProvider) :
    ∀ (ids arr acc : List ℕ) (next : ℕ) (out : List ℕ × List ℕ),
      ids.Sorted (· < ·) →
      buildGlyphs p ids arr acc next = .ok out →
      out.2 = acc ++ List.range' next ids.length ∧
      out.1.length = arr.length ∧
      (∀ id ∈ ids, p.fail id = none ∧ id < arr.length) ∧
      (∀ j, j ∉ ids → out.1[j]? = arr[j]?) ∧
      (∀ k (hk : k < ids.length), out.1[ids.get ⟨k, hk⟩]? = some (next + k)) := by
  intro ids
  induction ids with
  | nil =>
      intro arr acc next out _ h
      simp only [buildGlyphs] at h
      cases h
      refine ⟨by simp [List.range'], rfl, ?_, fun j _ => rfl, ?_⟩
      · intro id hid; cases hid
      · intro k hk; cases hk
  | cons id rest ih =>
      intro arr acc next out hs h
      simp only [buildGlyphs] at h
      obtain ⟨hgt, hs2⟩ := List.sorted_cons.1 hs
      cases hf : p.fail id with
      | some e => rw [hf] at h; cases h
      | none =>
          rw [hf] at h
          by_cases hlt : id < arr.length
          · rw [if_pos hlt] at h
            obtain ⟨hacc, hlen, hmem, hunch, hget⟩ :=
              ih (arr.set id next) (acc ++ [next]) (next + 1) out hs2 h
            have hidrest : id ∉ rest := fun hh => lt_irrefl id (hgt id hh)
            refine ⟨?_, ?_, ?_, ?_, ?_⟩
            · rw [hacc, List.append_assoc]
              rfl
            · rw [hlen, List.length_set]
            · intro x hx
              rcases List.mem_cons.1 hx with rfl | hx
              · exact ⟨hf, hlt⟩
              · obtain ⟨h1, h2⟩ := hmem x hx
                rw [List.length_set] at h2
                exact ⟨h1, h2⟩
            · intro j hj
              have hjne : id ≠ j := fun hh => hj (hh ▸ List.mem_cons_self _ _)
              have hjrest : j ∉ rest := fun hh => hj (List.mem_cons_of_mem _ hh)
              rw [hunch j hjrest, List.getElem?_set_ne hjne]
            · intro k hk
              cases k with
              | zero =>
                  have hgot : out.1[id]? = (arr.set id next)[id]? := hunch id hidrest
                  have : (arr.set id next)[id]? = some next := List.getElem?_set_self hlt
                  show out.1[(id :: rest).get ⟨0, hk⟩]? = some (next + 0)
                  rw [show (id :: rest).get ⟨0, hk⟩ = id from rfl, hgot, this, Nat.add_zero]
              | succ k =>
                  have hk2 : k < rest.length := Nat.lt_of_succ_lt_succ hk
                  have hgeteq : (id :: rest).get ⟨k + 1, hk⟩ = rest.get ⟨k, hk2⟩ := rfl
                  rw [hgeteq, hget k hk2]
                  congr 1
                  omega
          · rw [if_neg hlt] at h
            cases h

lemma lastGlyphId_le (ids : List ℕ) : lastGlyphId ids ≤ 65535 := by
  cases h : ids.getLast? with
  | none => simp [lastGlyphId, h]
  | some id =>
      have h2 : (id + 1) % 65536 < 65536 := Nat.mod_lt _ (by norm_num)
      simp only [lastGlyphId, h]
      omega

lemma sorted_lt_index_le_get (l : List ℕ) (hs : l.Sorted (· < ·)) (k : ℕ)
    (hk : k < l.length) : k ≤ l.get ⟨k, hk⟩ := by
  cases l with
  | nil => cases hk
  | cons a t =>
      have := sorted_cons_le_get t a hs k hk
      omega

lemma from_glyph_ids_ok_spec (glyph_ids : List ℕ) (p : OutlineProvider)
    (store : GlyphStore) (hok : GlyphStore.from_glyph_ids glyph_ids p = .ok store) :
    store.outlines = p.bounds ∧
    store.glyph_id_to_glyph_index.length = lastGlyphId (sortedDedup glyph_ids) ∧
    (∀ id ∈ sortedDedup glyph_ids,
        p.fail id = none ∧ id < lastGlyphId (sortedDedup glyph_ids)) ∧
    (∀ j, j ∉ sortedDedup glyph_ids →
        store.glyph_id_to_glyph_index[j]? =
          (List.replicate (lastGlyphId (sortedDedup glyph_ids)) 65535)[j]?) ∧
    (∀ k (hk : k < (sortedDedup glyph_ids).length),
        store.glyph_id_to_glyph_index[(sortedDedup glyph_ids).get ⟨k, hk⟩]? = some k) ∧
    store.all_glyph_indices = sortedDedup (List.range (sortedDedup glyph_ids).length) := by
  simp only [GlyphStore.from_glyph_ids] at hok
  cases hb : buildGlyphs p (sortedDedup glyph_ids)
      (List.replicate (lastGlyphId (sortedDedup glyph_ids)) 65535) [] 0 with
  | panic => rw [hb] at hok; cases hok
  | err e => rw [hb] at hok; cases hok
  | ok pr =>
      rw [hb] at hok
      obtain ⟨arr, acc⟩ := pr
      cases hfin : p.finalizeErr with
      | some e => rw [hfin] at hok; cases hok
      | none =>
          rw [hfin] at hok
          cases hok
          obtain ⟨hacc, hlen, hmem, hunch, hget⟩ :=
            buildGlyphs_ok_spec p (sortedDedup glyph_ids)
              (List.replicate (lastGlyphId (sortedDedup glyph_ids)) 65535) [] 0 (arr, acc)
              (sortedDedup_sorted _) hb
          have hacc2 : acc = List.range (sortedDedup glyph_ids).length := by
        
            rw [List.range_eq_range']
            simpa using hacc
          refine ⟨rfl, ?_, ?_, ?_, ?_, ?_⟩
          · simpa using hlen
          · intro id hid
            obtain ⟨h1, h2⟩ := hmem id hid
            rw [List.length_replicate] at h2
            exact ⟨h1, h2⟩
          · intro j hj
            exact hunch j hj
          · intro k hk
            simpa using hget k hk
          · show sortedDedup acc = _
            rw [hacc2]

lemma glyph_index_of_ok (glyph_ids : List ℕ) (p : OutlineProvider) (store : GlyphStore)
    (hok : GlyphStore.from_glyph_ids glyph_ids p = .ok store) (k : ℕ)
    (hk : k < (sortedDedup glyph_ids).length) :
    store.glyph_index ((sortedDedup glyph_ids).get ⟨k, hk⟩) = some k ∧ k < 65535 := by
  obtain ⟨-, -, hmem, -, hget, -⟩ := from_glyph_ids_ok_spec glyph_ids p store hok
  have hkid : k ≤ (sortedDedup glyph_ids).get ⟨k, hk⟩ :=
    sorted_lt_index_le_get _ (sortedDedup_sorted _) k hk
  have hidlt : (sortedDedup glyph_ids).get ⟨k, hk⟩ < lastGlyphId (sortedDedup glyph_ids) :=
    (hmem _ (List.get_mem _ _ hk)).2
  have hk65535 : k < 65535 :=
    lt_of_le_of_lt hkid (lt_of_lt_of_le hidlt (lastGlyphId_le _))
  refine ⟨?_, hk65535⟩
  unfold GlyphStore.glyph_index
  rw [hget k hk]
  show (if k = 65535 then none else some k) = some k
  rw [if_neg (Nat.ne_of_lt hk65535)]

/-- C6: if `create_glyph_store` succeeds, then `glyph_index` is present
(`Some`) for every glyph identifier appearing in the typesetter's
`glyph_positions` at the time of the call. -/
theorem create_glyph_store_round_trip (t : Typesetter) (p : OutlineProvider)
    (store : GlyphStore) (hok : t.create_glyph_store p = .ok store) :
    ∀ gp ∈ t.glyph_positions, (store.glyph_index gp.glyph_id).isSome = true := by
  intro gp hgp
  have hid : gp.glyph_id ∈ sortedDedup (t.glyph_positions.map (fun gp => gp.glyph_id)) :=
    (mem_sortedDedup _ _).2 (List.mem_map_of_mem _ hgp)
  obtain ⟨⟨k, hk⟩, hkeq⟩ := List.mem_iff_get.1 hid
  have := (glyph_index_of_ok _ p store hok k hk).1
  rw [hkeq] at this
  rw [this]
  rfl

/-- A failure-free outline provider for concrete evaluations. -/
def exProvider : OutlineProvider := ⟨fun _ => none, none, fun _ _ => ⟨0, 0, 1, 1⟩⟩

/-- A typesetter holding one glyph with identifier 3. -/
def exTypesetter : Typesetter := ⟨[⟨0, 0, 3⟩], 100, (0, 0)⟩

/-- The store `from_glyph_ids [3] exProvider` produces: lookup array of
length 4, id 3 mapped to dense index 0. -/
def exStore : GlyphStore := ⟨exProvider.bounds, [65535, 65535, 65535, 0], [0]⟩

theorem create_glyph_store_round_trip_witness :
    (exTypesetter.create_glyph_store exProvider = .ok exStore) ∧
    (exStore.glyph_index (3 : ℕ)).isSome = true :=
  ⟨rfl,
   create_glyph_store_round_trip exTypesetter exProvider exStore rfl ⟨0, 0, 3⟩
     (List.mem_singleton.2 rfl)⟩

lemma glyph_index_none_of_not_mem (glyph_ids : List ℕ) (p : OutlineProvider)
    (store : GlyphStore) (hok : GlyphStore.from_glyph_ids glyph_ids p = .ok store)
    (j : ℕ) (hj : j ∉ sortedDedup glyph_ids) : store.glyph_index j = none := by
  obtain ⟨-, -, -, hunch, -, -⟩ := from_glyph_ids_ok_spec glyph_ids p store hok
  unfold GlyphStore.glyph_index
  rw [hunch j hj, List.getElem?_replicate]
  by_cases hlt : j < lastGlyphId (sortedDedup glyph_ids)
  · rw [if_pos hlt]
    rfl
  · rw [if_neg hlt]

lemma sortedDedup_congr (l₁ l₂ : List ℕ) (h : ∀ a, a ∈ l₁ ↔ a ∈ l₂) :
    sortedDedup l₁ = sortedDedup l₂ :=
  sorted_lt_eq_of_mem_iff (sortedDedup_sorted _) (sortedDedup_sorted _)
    (fun a => (mem_sortedDedup _ a).trans ((h a).trans (mem_sortedDedup _ a).symm))

/-- C7: on a successfully constructed store (with the spec's dense,
monotone index assignment by the outline provider), `glyph_index` is
injective over the identifiers the store was built from, and
`all_glyph_indices` equals the sorted, deduplicated image of the lookup
array restricted to non-sentinel entries. -/
theorem glyph_index_injective (glyph_ids : List ℕ) (p : OutlineProvider)
    (store : GlyphStore) (hok : GlyphStore.from_glyph_ids glyph_ids p = .ok store) :
    (∀ a ∈ glyph_ids, ∀ b ∈ glyph_ids,
        store.glyph_index a = store.glyph_index b → a = b) ∧
    store.all_glyph_indices =
      sortedDedup (store.glyph_id_to_glyph_index.filter (fun i => i != 65535)) := by
  obtain ⟨-, -, -, hunch, hget, hall⟩ := from_glyph_ids_ok_spec glyph_ids p store hok
  constructor
  · intro a ha b hb heq
    have ha2 : a ∈ sortedDedup glyph_ids := (mem_sortedDedup _ _).2 ha
    have hb2 : b ∈ sortedDedup glyph_ids := (mem_sortedDedup _ _).2 hb
    obtain ⟨⟨k₁, hk₁⟩, hke₁⟩ := List.mem_iff_get.1 ha2
    obtain ⟨⟨k₂, hk₂⟩, hke₂⟩ := List.mem_iff_get.1 hb2
    have h1 := (glyph_index_of_ok glyph_ids p store hok k₁ hk₁).1
    have h2 := (glyph_index_of_ok glyph_ids p store hok k₂ hk₂).1
    rw [hke₁] at h1
    rw [hke₂] at h2
    rw [h1, h2] at heq
    have hkk : k₁ = k₂ := by injection heq
    rw [← hke₁, ← hke₂]
    congr 1
    exact Fin.ext hkk
  · rw [hall]
    apply sortedDedup_congr
    intro x
    constructor
    · intro hx
      have hxn : x < (sortedDedup glyph_ids).length := List.mem_range.1 hx
      have hgetx := hget x hxn
      refine List.mem_filter.2 ⟨List.getElem?_mem hgetx, ?_⟩
      have hx65535 : x < 65535 := (glyph_index_of_ok glyph_ids p store hok x hxn).2
      simpa using Nat.ne_of_lt hx65535
    · intro hx
      obtain ⟨hxarr, hxne⟩ := List.mem_filter.1 hx
      have hxne2 : x ≠ 65535 := by simpa using hxne
      obtain ⟨j, hjlt, hjx⟩ := List.mem_iff_getElem.1 hxarr
      have hjx2 : store.glyph_id_to_glyph_index[j]? = some x := by
        rw [List.getElem?_eq_getElem hjlt, hjx]
      by_cases hmem2 : j ∈ sortedDedup glyph_ids
      · obtain ⟨⟨k, hk⟩, hke⟩ := List.mem_iff_get.1 hmem2
        have hgk := hget k hk
        rw [hke] at hgk
        rw [hgk] at hjx2
        have hkx : k = x := by injection hjx2
        exact List.mem_range.2 (hkx ▸ hk)
      · have hu := hunch j hmem2
        rw [hu, List.getElem?_replicate] at hjx2
        by_cases hjL : j < lastGlyphId (sortedDedup glyph_ids)
        · rw [if_pos hjL] at hjx2
          have : (65535 : ℕ) = x := by injection hjx2
          exact absurd this.symm hxne2
        · rw [if_neg hjL] at hjx2
          cases hjx2

theorem glyph_index_injective_witness :
    (GlyphStore.from_glyph_ids [3] exProvider = .ok exStore) ∧
    exStore.all_glyph_indices =
      sortedDedup (exStore.glyph_id_to_glyph_index.filter (fun i => i != 65535)) :=
  ⟨rfl, (glyph_index_injective [3] exProvider exStore rfl).2⟩

lemma buildGlyphs_first_err (p : OutlineProvider) :
    ∀ (ids arr acc : List ℕ) (next : ℕ) (e : ℕ),
      (∀ id ∈ ids, id < arr.length) →
      ids.findSome? p.fail = some e →
      buildGlyphs p ids arr acc next = .err (.fontError e) := by
  intro ids
  induction ids with
  | nil => intro arr acc next e _ hfind; cases hfind
  | cons id rest ih =>
      intro arr acc next e hbound hfind
      rw [List.findSome?_cons] at hfind
      simp only [buildGlyphs]
      cases hf : p.fail id with
      | some e0 =>
          rw [hf] at hfind
          cases hfind
          rfl
      | none =>
          rw [hf] at hfind
          rw [if_pos (hbound id (List.mem_cons_self _ _))]
          refine ih _ _ _ e ?_ hfind
          intro x hx
          rw [List.length_set]
          exact hbound x (List.mem_cons_of_mem _ hx)

lemma buildGlyphs_no_fail_ok (p : OutlineProvider) :
    ∀ (ids arr acc : List ℕ) (next : ℕ),
      (∀ id ∈ ids, id < arr.length) →
      ids.findSome? p.fail = none →
      ∃ out, buildGlyphs p ids arr acc next = .ok out := by
  intro ids
  induction ids with
  | nil => intro arr acc next _ _; exact ⟨(arr, acc), rfl⟩
  | cons id rest ih =>
      intro arr acc next hbound hfind
      rw [List.findSome?_cons] at hfind
      simp only [buildGlyphs]
      cases hf : p.fail id with
      | some e0 => rw [hf] at hfind; cases hfind
      | none =>
          rw [hf] at hfind
          rw [if_pos (hbound id (List.mem_cons_self _ _))]
          refine ih _ _ _ ?_ hfind
          intro x hx
          rw [List.length_set]
          exact hbound x (List.mem_cons_of_mem _ hx)

lemma sorted_lt_le_getLast : ∀ (l : List ℕ), l.Sorted (· < ·) →
    ∀ x ∈ l, ∀ (h : l ≠ []), x ≤ l.getLast h := by
  intro l
  induction l with
  | nil => intro _ x hx; cases hx
  | cons a t ih =>
      intro hs x hx h
      obtain ⟨ha, ht⟩ := List.sorted_cons.1 hs
      cases t with
      | nil =>
          rcases List.mem_singleton.1 hx with rfl
          rfl
      | cons b u =>
          rw [List.getLast_cons (by simp)]
          rcases List.mem_cons.1 hx with rfl | hx2
          · have hbm : (b :: u).getLast (by simp) ∈ b :: u := List.getLast_mem _
            exact le_of_lt (ha _ hbm)
          · exact ih ht x hx2 (by simp)

lemma sortedDedup_lt_lastGlyphId (glyph_ids : List ℕ)
    (h : ∀ id ∈ glyph_ids, id < 65535) :
    ∀ id ∈ sortedDedup glyph_ids, id < lastGlyphId (sortedDedup glyph_ids) := by
  intro id hid
  have hne : sortedDedup glyph_ids ≠ [] := List.ne_nil_of_mem hid
  have hlastmem : (sortedDedup glyph_ids).getLast hne ∈ sortedDedup glyph_ids :=
    List.getLast_mem _
  have hlast65535 : (sortedDedup glyph_ids).getLast hne < 65535 :=
    h _ ((mem_sortedDedup _ _).1 hlastmem)
  have hle : id ≤ (sortedDedup glyph_ids).getLast hne :=
    sorted_lt_le_getLast _ (sortedDedup_sorted _) id hid hne
  have hform : lastGlyphId (sortedDedup glyph_ids) =
      (sortedDedup glyph_ids).getLast hne + 1 := by
    unfold lastGlyphId
    rw [List.getLast?_eq_getLast _ hne]
    exact Nat.mod_eq_of_lt (by omega)
  omega

/-- C8: store construction is all-or-nothing.  If materializing any glyph
outline fails, `from_glyph_ids` returns the first font error (in processing
order over the sorted, deduplicated identifiers) tagged `FontError`, and no
store is produced; if all glyphs succeed but finalizing the batch fails, it
returns the backend error tagged `GlError`.  No retry is attempted. -/
theorem from_glyph_ids_all_or_nothing :
    (∀ (glyph_ids : List ℕ) (p : OutlineProvider) (e : ℕ),
        (∀ id ∈ glyph_ids, id < 65535) →
        (sortedDedup glyph_ids).findSome? p.fail = some e →
        GlyphStore.from_glyph_ids glyph_ids p = .err (.fontError e))
    ∧ ∀ (glyph_ids : List ℕ) (p : OutlineProvider) (e : ℕ),
        (∀ id ∈ glyph_ids, id < 65535) →
        (sortedDedup glyph_ids).findSome? p.fail = none →
        p.finalizeErr = some e →
        GlyphStore.from_glyph_ids glyph_ids p = .err (.glError e) := by
  constructor
  · intro glyph_ids p e hlt hfind
    have hbound : ∀ id ∈ sortedDedup glyph_ids,
        id < (List.replicate (lastGlyphId (sortedDedup glyph_ids)) 65535).length := by
      intro id hid
      rw [List.length_replicate]
      exact sortedDedup_lt_lastGlyphId glyph_ids hlt id hid
    have hb := buildGlyphs_first_err p (sortedDedup glyph_ids)
      (List.replicate (lastGlyphId (sortedDedup glyph_ids)) 65535) [] 0 e hbound hfind
    simp only [GlyphStore.from_glyph_ids]
    rw [hb]
  · intro glyph_ids p e hlt hfind hfin
    have hbound : ∀ id ∈ sortedDedup glyph_ids,
        id < (List.replicate (lastGlyphId (sortedDedup glyph_ids)) 65535).length := by
      intro id hid
      rw [List.length_replicate]
      exact sortedDedup_lt_lastGlyphId glyph_ids hlt id hid
    obtain ⟨out, hout⟩ := buildGlyphs_no_fail_ok p (sortedDedup glyph_ids)
      (List.replicate (lastGlyphId (sortedDedup glyph_ids)) 65535) [] 0 hbound hfind
    obtain ⟨arr, acc⟩ := out
    simp only [GlyphStore.from_glyph_ids]
    rw [hout, hfin]

/-- An outline provider whose `add_glyph` always fails with font error 7. -/
def exFailProvider : OutlineProvider := ⟨fun _ => some 7, none, fun _ _ => ⟨0, 0, 1, 1⟩⟩

theorem from_glyph_ids_all_or_nothing_witness :
    ((∀ id ∈ [(3 : ℕ)], id < 65535) ∧
      (sortedDedup [3]).findSome? exFailProvider.fail = some 7 ∧
      GlyphStore.from_glyph_ids [3] exFailProvider = .err (.fontError 7)) ∧
    ((sortedDedup [3]).findSome? exProvider.fail = none ∧
      GlyphStore.from_glyph_ids [3] ⟨exProvider.fail, some 9, exProvider.bounds⟩ =
        .err (.glError 9)) :=
  ⟨⟨by decide, rfl,
    from_glyph_ids_all_or_nothing.1 [3] exFailProvider 7 (by decide) rfl⟩,
   ⟨rfl,
    from_glyph_ids_all_or_nothing.2 [3] ⟨exProvider.fail, some 9, exProvider.bounds⟩ 9
      (by decide) rfl rfl⟩⟩

/-- C10: identifiers must be strictly below the `u16::MAX` sentinel.  With
identifier 65535 present, `last_glyph_id = 65535 + 1` wraps to `0` in `u16`
arithmetic, the lookup array is allocated empty, and the first store into it
panics, so construction never returns; independently, a dense index equal
to 65535 stored in the lookup array is indistinguishable from the absent
sentinel — `glyph_index` reports it as absent. -/
theorem glyph_id_sentinel_overflow :
    (lastGlyphId [65535] = 0 ∧
      ∀ p : OutlineProvider, p.fail 65535 = none →
        GlyphStore.from_glyph_ids [65535] p = .panic)
    ∧ ∀ (store : GlyphStore) (glyph_id : ℕ),
        store.glyph_id_to_glyph_index[glyph_id]? = some 65535 →
        store.glyph_index glyph_id = none := by
  refine ⟨⟨rfl, ?_⟩, ?_⟩
  · intro p hp
    have hs : sortedDedup [65535] = [65535] := rfl
    have hb : buildGlyphs p (sortedDedup [65535])
        (List.replicate (lastGlyphId (sortedDedup [65535])) 65535) [] 0 = .panic := by
      rw [hs]
      show buildGlyphs p [65535] (List.replicate 0 65535) [] 0 = .panic
      simp only [buildGlyphs, hp]
      rfl
    simp only [GlyphStore.from_glyph_ids]
    rw [hb]
  · intro store glyph_id h
    unfold GlyphStore.glyph_index
    rw [h]
    rfl

theorem glyph_id_sentinel_overflow_witness :
    (exProvider.fail 65535 = none ∧
      GlyphStore.from_glyph_ids [65535] exProvider = .panic) ∧
    (exStore.glyph_id_to_glyph_index[(0 : ℕ)]? = some 65535 ∧
      exStore.glyph_index 0 = none) :=
  ⟨⟨rfl, glyph_id_sentinel_overflow.1.2 exProvider rfl⟩,
   ⟨rfl, glyph_id_sentinel_overflow.2 exStore 0 rfl⟩⟩

/-! ## Viewport culling -/

/-- `euclid::Rect<f32>`: an origin and a size. -/
structure RectQ where
  origin : ℚ × ℚ
  size : ℚ × ℚ
deriving DecidableEq

/-- `euclid::Rect::intersects`: strict overlap on both axes. -/
def RectQ.intersects (s o : RectQ) : Prop :=
  s.origin.1 < o.origin.1 + o.size.1 ∧ o.origin.1 < s.origin.1 + s.size.1 ∧
  s.origin.2 < o.origin.2 + o.size.2 ∧ o.origin.2 < s.origin.2 + s.size.2

instance (s o : RectQ) : Decidable (s.intersects o) := by
  unfold RectQ.intersects
  infer_instance

/-- `f32::round`: round half away from zero. -/
def roundTiesAway (x : ℚ) : ℤ :=
  if 0 ≤ x then ⌊x + 1 / 2⌋ else ⌈x - 1 / 2⌉

/-- `f32::trunc`: round toward zero. -/
def truncToZero (x : ℚ) : ℤ :=
  if 0 ≤ x then ⌊x⌋ else ⌈x⌉

/-- `f32::fract`: `x - x.trunc()`. -/
def fractRs (x : ℚ) : ℚ := x - (truncToZero x : ℚ)

/-- The `subpixel_x` computation of `positioned_glyphs_in_rect`:
`if x >= 0 { x.fract() } else { 1.0 + x.fract() }`. -/
def subpixelX (x : ℚ) : ℚ :=
  if 0 ≤ x then fractRs x else 1 + fractRs x

/-- The snapped rectangle built for one glyph position: scale the subpixel
bounds, round them out, snap the origin — x to the nearest multiple of the
subpixel granularity via `(x * scale * (1/granularity)).round() * granularity`,
y to `(y * scale).round() - pixel_bounds.top` — and keep the *unrounded*
subpixel size. -/
def glyphSnappedRect (bounds : GlyphSubpixelBounds) (gp : GlyphPosition)
    (scale subpixel_granularity : ℚ) : RectQ :=
  let b := bounds.scale scale
  let pixel := b.round_out
  ⟨((roundTiesAway (gp.x * scale * (1 / subpixel_granularity)) : ℚ) * subpixel_granularity,
    (roundTiesAway (gp.y * scale) : ℚ) - (pixel.top : ℚ)),
   b.size⟩

/-- `PositionedGlyph { bounds, subpixel_x, glyph_index }`. -/
structure PositionedGlyph where
  bounds : RectQ
  subpixel_x : ℚ
  glyph_index : ℕ
deriving DecidableEq

/-- The loop of `Typesetter::positioned_glyphs_in_rect`: skip glyphs absent
from the store (`continue`), build the snapped rectangle, cull against the
bounding rectangle (`continue`), compute `subpixel_x`, and push. -/
def pgirLoop (bounding_rect : RectQ) (glyph_store : GlyphStore)
    (point_size scale subpixel_granularity : ℚ) :
    List GlyphPosition → List PositionedGlyph
  | [] => []
  | gp :: rest =>
      match glyph_store.glyph_index gp.glyph_id with
      | none => pgirLoop bounding_rect glyph_store point_size scale subpixel_granularity rest
      | some glyph_index =>
          let r := glyphSnappedRect (glyph_store.outlines glyph_index point_size) gp scale
            subpixel_granularity
          if r.intersects bounding_rect then
            ⟨r, subpixelX r.origin.1, glyph_index⟩ ::
              pgirLoop bounding_rect glyph_store point_size scale subpixel_granularity rest
          else pgirLoop bounding_rect glyph_store point_size scale subpixel_granularity rest

/-- `Typesetter::positioned_glyphs_in_rect`. -/
def Typesetter.positioned_glyphs_in_rect (t : Typesetter) (bounding_rect : RectQ)
    (glyph_store : GlyphStore) (point_size scale subpixel_granularity : ℚ) :
    List PositionedGlyph :=
  pgirLoop bounding_rect glyph_store point_size scale subpixel_granularity t.glyph_positions

/-- Brute-force specification of the per-glyph viewport test: `none` when
the glyph is absent from the store or its snapped rectangle misses the
query rectangle, otherwise the render-ready record. -/
def cullGlyph (bounding_rect : RectQ) (glyph_store : GlyphStore)
    (point_size scale subpixel_granularity : ℚ) (gp : GlyphPosition) :
    Option PositionedGlyph :=
  match glyph_store.glyph_index gp.glyph_id with
  | none => none
  | some glyph_index =>
      let r := glyphSnappedRect (glyph_store.outlines glyph_index point_size) gp scale
        subpixel_granularity
      if r.intersects bounding_rect then some ⟨r, subpixelX r.origin.1, glyph_index⟩
      else none

lemma pgirLoop_eq_filterMap (bounding_rect : RectQ) (glyph_store : GlyphStore)
    (point_size scale subpixel_granularity : ℚ) :
    ∀ l : List GlyphPosition,
      pgirLoop bounding_rect glyph_store point_size scale subpixel_granularity l =
        l.filterMap (cullGlyph bounding_rect glyph_store point_size scale
          subpixel_granularity) := by
  intro l
  induction l with
  | nil => rfl
  | cons gp rest ih =>
      simp only [pgirLoop, List.filterMap_cons]
      cases hidx : glyph_store.glyph_index gp.glyph_id with
      | none =>
          simp only [cullGlyph, hidx]
          exact ih
      | some glyph_index =>
          simp only [cullGlyph, hidx]
          by_cases hi : (glyphSnappedRect (glyph_store.outlines glyph_index point_size) gp
              scale subpixel_granularity).intersects bounding_rect
          · simp only [hi, if_true]
            rw [ih]
          · simp only [hi, if_false]
            exact ih

/-- C2: the viewport query returns exactly the stored glyph positions whose
identifier is present in the store and whose snapped rectangle (snapped
origin, unrounded subpixel size) intersects the query rectangle —
equivalent to the brute-force per-glyph enumeration `cullGlyph`, with
absent identifiers silently skipped and no failure — and it returns the
empty list when every present glyph's snapped rectangle misses the query
rectangle. -/
theorem positioned_glyphs_in_rect_exact (t : Typesetter) (bounding_rect : RectQ)
    (glyph_store : GlyphStore) (point_size scale subpixel_granularity : ℚ) :
    t.positioned_glyphs_in_rect bounding_rect glyph_store point_size scale
        subpixel_granularity =
      t.glyph_positions.filterMap
        (cullGlyph bounding_rect glyph_store point_size scale subpixel_granularity) ∧
    ((∀ gp ∈ t.glyph_positions, ∀ glyph_index,
        glyph_store.glyph_index gp.glyph_id = some glyph_index →
        ¬ (glyphSnappedRect (glyph_store.outlines glyph_index point_size) gp scale
            subpixel_granularity).intersects bounding_rect) →
      t.positioned_glyphs_in_rect bounding_rect glyph_store point_size scale
        subpixel_granularity = []) := by
  have hmain := pgirLoop_eq_filterMap bounding_rect glyph_store point_size scale
    subpixel_granularity t.glyph_positions
  refine ⟨hmain, ?_⟩
  intro hmiss
  unfold Typesetter.positioned_glyphs_in_rect
  rw [hmain]
  rw [List.filterMap_eq_nil_iff]
  intro gp hgp
  unfold cullGlyph
  cases hidx : glyph_store.glyph_index gp.glyph_id with
  | none => rfl
  | some glyph_index =>
      simp only
      rw [if_neg (hmiss gp hgp glyph_index hidx)]

theorem positioned_glyphs_in_rect_exact_witness :
    Typesetter.positioned_glyphs_in_rect ⟨[], 10, (0, 0)⟩ ⟨(0, 0), (1, 1)⟩ exStore 1 1 1 = [] :=
  (positioned_glyphs_in_rect_exact ⟨[], 10, (0, 0)⟩ ⟨(0, 0), (1, 1)⟩ exStore 1 1 1).2
    (fun gp hgp => absurd hgp (List.not_mem_nil gp))

lemma subpixelX_bounds (x : ℚ) :
    0 ≤ subpixelX x ∧ subpixelX x ≤ 1 ∧
    (subpixelX x = 1 → x < 0 ∧ (⌈x⌉ : ℚ) = x) := by
  unfold subpixelX fractRs truncToZero
  by_cases hx : 0 ≤ x
  · rw [if_pos hx, if_pos hx]
    have h1 : (⌊x⌋ : ℚ) ≤ x := Int.floor_le x
    have h2 : x < ⌊x⌋ + 1 := Int.lt_floor_add_one x
    refine ⟨by linarith, by linarith, fun h => absurd h (by linarith)⟩
  · rw [if_neg hx, if_neg hx]
    have h1 : x ≤ (⌈x⌉ : ℚ) := Int.le_ceil x
    have h2 : (⌈x⌉ : ℚ) < x + 1 := by
      have := Int.ceil_lt_add_one x
      exact_mod_cast this
    refine ⟨by linarith, by linarith, fun h => ⟨lt_of_not_ge hx, by linarith⟩⟩

/-- C3 (amended): every emitted `subpixel_x` equals the fract-normalization
`subpixelX` of the snapped origin's x and lies in the *closed* interval
`[0, 1]`; it can equal `1` exactly when the snapped origin's x is a negative
integer (then `fract x = 0` and the negative branch yields `1 + 0`), and
lies in `[0, 1)` whenever the snapped origin's x is not a negative
integer. -/
theorem subpixel_x_in_unit_interval (t : Typesetter) (bounding_rect : RectQ)
    (glyph_store : GlyphStore) (point_size scale subpixel_granularity : ℚ) :
    ∀ pg ∈ t.positioned_glyphs_in_rect bounding_rect glyph_store point_size scale
        subpixel_granularity,
      pg.subpixel_x = subpixelX pg.bounds.origin.1 ∧
      0 ≤ pg.subpixel_x ∧ pg.subpixel_x ≤ 1 ∧
      (pg.subpixel_x = 1 →
        pg.bounds.origin.1 < 0 ∧ (⌈pg.bounds.origin.1⌉ : ℚ) = pg.bounds.origin.1) := by
  intro pg hpg
  unfold Typesetter.positioned_glyphs_in_rect at hpg
  rw [pgirLoop_eq_filterMap] at hpg
  obtain ⟨gp, hgp, hc⟩ := List.mem_filterMap.1 hpg
  unfold cullGlyph at hc
  cases hidx : glyph_store.glyph_index gp.glyph_id with
  | none => rw [hidx] at hc; cases hc
  | some glyph_index =>
      rw [hidx] at hc
      simp only at hc
      by_cases hi : (glyphSnappedRect (glyph_store.outlines glyph_index point_size) gp scale
          subpixel_granularity).intersects bounding_rect
      · rw [if_pos hi] at hc
        cases hc
        obtain ⟨h0, h1, h2⟩ := subpixelX_bounds
          (glyphSnappedRect (glyph_store.outlines glyph_index point_size) gp scale
            subpixel_granularity).origin.1
        exact ⟨rfl, h0, h1, h2⟩
      · rw [if_neg hi] at hc
        cases hc

/-- Modelling artifacts for the concrete viewport evaluations: a page with
one glyph (id 0) at pen position `(2, 0)`, a store mapping id 0 to dense
index 0 with unit subpixel bounds. -/
def cT3 : Typesetter := ⟨[⟨2, 0, 0⟩], 100, (0, 0)⟩

def cS : GlyphStore := ⟨fun _ _ => ⟨0, 0, 1, 1⟩, [0], [0]⟩

theorem subpixel_x_in_unit_interval_witness :
    (⟨⟨(2, -1), (1, 1)⟩, 0, 0⟩ : PositionedGlyph).subpixel_x =
        subpixelX (⟨⟨(2, -1), (1, 1)⟩, 0, 0⟩ : PositionedGlyph).bounds.origin.1 ∧
      0 ≤ (⟨⟨(2, -1), (1, 1)⟩, 0, 0⟩ : PositionedGlyph).subpixel_x ∧
      (⟨⟨(2, -1), (1, 1)⟩, 0, 0⟩ : PositionedGlyph).subpixel_x ≤ 1 ∧
      ((⟨⟨(2, -1), (1, 1)⟩, 0, 0⟩ : PositionedGlyph).subpixel_x = 1 →
        (⟨⟨(2, -1), (1, 1)⟩, 0, 0⟩ : PositionedGlyph).bounds.origin.1 < 0 ∧
          (⌈(⟨⟨(2, -1), (1, 1)⟩, 0, 0⟩ : PositionedGlyph).bounds.origin.1⌉ : ℚ) =
            (⟨⟨(2, -1), (1, 1)⟩, 0, 0⟩ : PositionedGlyph).bounds.origin.1) :=
  subpixel_x_in_unit_interval cT3 ⟨(0, -10), (20, 20)⟩ cS 1 1 1
    ⟨⟨(2, -1), (1, 1)⟩, 0, 0⟩
    (by norm_num [Typesetter.positioned_glyphs_in_rect, pgirLoop, GlyphStore.glyph_index,
      cT3, cS, glyphSnappedRect, GlyphSubpixelBounds.scale, GlyphSubpixelBounds.round_out,
      GlyphSubpixelBounds.size, RectQ.intersects, roundTiesAway, subpixelX, fractRs,
      truncToZero])

/-- C3 counterexample: with `scale = -1` the snapped origin's x is the
negative integer `-2`; the emitted `subpixel_x` is `1 + fract(-2) = 1`,
outside the half-open interval `[0, 1)` the claim states. -/
theorem subpixel_x_reaches_one :
    ∃ pg ∈ cT3.positioned_glyphs_in_rect ⟨(-10, -10), (20, 20)⟩ cS 1 (-1) 1,
      ¬ pg.subpixel_x < 1 := by
  have hc1 : (⌈(-(5 / 2) : ℚ)⌉ : ℤ) = -2 := by
    apply Int.ceil_eq_iff.2
    constructor <;> norm_num
  have hc2 : (⌈(-1 : ℚ)⌉ : ℤ) = -1 := by
    apply Int.ceil_eq_iff.2
    constructor <;> norm_num
  have hc3 : (⌈(-2 : ℚ)⌉ : ℤ) = -2 := by
    apply Int.ceil_eq_iff.2
    constructor <;> norm_num
  refine ⟨⟨⟨(-2, 1), (-1, -1)⟩, 1, 0⟩, ?_, by norm_num⟩
  norm_num [Typesetter.positioned_glyphs_in_rect, pgirLoop, GlyphStore.glyph_index,
    cT3, cS, glyphSnappedRect, GlyphSubpixelBounds.scale, GlyphSubpixelBounds.round_out,
    GlyphSubpixelBounds.size, RectQ.intersects, roundTiesAway, subpixelX, fractRs,
    truncToZero, hc1, hc2, hc3]

lemma roundTiesAway_intCast (n : ℤ) : roundTiesAway (n : ℚ) = n := by
  unfold roundTiesAway
  by_cases h : (0 : ℚ) ≤ (n : ℚ)
  · rw [if_pos h]
    apply Int.floor_eq_iff.2
    constructor
    · linarith
    · linarith
  · rw [if_neg h]
    apply Int.ceil_eq_iff.2
    constructor
    · linarith
    · linarith

/-- C9: for every glyph processed by `positioned_glyphs_in_rect`, the
snapped rectangle's `origin.y` — `round(y * scale) - pixel_bounds.top`, an
integer minus an integer — lands exactly on an integer, so the source's
`debug_assert!(origin.y == origin.y.round())` holds for all inputs. -/
theorem snapped_origin_y_integral (bounds : GlyphSubpixelBounds) (gp : GlyphPosition)
    (scale subpixel_granularity : ℚ) :
    (glyphSnappedRect bounds gp scale subpixel_granularity).origin.2 =
      ((roundTiesAway
          ((glyphSnappedRect bounds gp scale subpixel_granularity).origin.2) : ℤ) : ℚ) := by
  have key : ((roundTiesAway (gp.y * scale) : ℚ) -
        (((bounds.scale scale).round_out.top : ℤ) : ℚ)) =
      (((roundTiesAway (gp.y * scale) - (bounds.scale scale).round_out.top : ℤ)) : ℚ) := by
    push_cast
    ring
  simp only [glyphSnappedRect]
  rw [key, roundTiesAway_intCast]
